import Mathlib

/-!
Verification of the `adoc` AsciiDoc-subset parser and HTML emitter.

The Rust sources (`src/parser.rs`, `src/ast.rs`) are shallowly embedded here.
Strings are modelled as Lean `String`s; all scanning works on their `List Char`
contents.  All byte positions computed by the Rust code sit on single-byte
ASCII marker characters, so character positions and byte positions delimit the
same substrings; the embedding therefore uses character lists throughout.
Imperative loops (`parse_paragraph_content`'s scanning loop and
`process_block_attributes`'s index loop) are embedded as fuel-indexed
structural recursions; in both loops every iteration consumes at least one
unit of the measure (characters remaining, respectively `len - i`), so fuel
equal to the initial measure reproduces the loop exactly.
-/

/-- Unicode `White_Space` test, mirroring Rust's `char::is_whitespace`. -/
def isWsRust (c : Char) : Bool :=
  (0x09 ≤ c.val && c.val ≤ 0x0D) || c.val = 0x20 || c.val = 0x85 || c.val = 0xA0 ||
  c.val = 0x1680 || (0x2000 ≤ c.val && c.val ≤ 0x200A) || c.val = 0x2028 ||
  c.val = 0x2029 || c.val = 0x202F || c.val = 0x205F || c.val = 0x3000

/-- Both-ends trim, mirroring Rust's `str::trim`. -/
def trimList (l : List Char) : List Char :=
  ((l.dropWhile isWsRust).reverse.dropWhile isWsRust).reverse

/-- Split at every occurrence of the character `c`, mirroring Rust's
`str::split(char)`: `n` separators yield `n + 1` pieces, empty pieces kept. -/
def splitChar (c : Char) : List Char → List (List Char)
  | [] => [[]]
  | x :: xs =>
    if x = c then [] :: splitChar c xs
    else
      match splitChar c xs with
      | [] => [[x]]
      | g :: gs => (x :: g) :: gs

/-- Does `l` begin with the pattern `pat`? -/
def startsWithSeq : List Char → List Char → Bool
  | [], _ => true
  | _ :: _, [] => false
  | p :: ps, x :: xs => p = x && startsWithSeq ps xs

/-- Leftmost occurrence of the pattern `pat` in `l`, mirroring Rust's
`str::find(&str)` for a non-empty pattern. -/
def idxOfSeq? (pat : List Char) : List Char → Option Nat
  | [] => if startsWithSeq pat [] then some 0 else none
  | x :: xs =>
    if startsWithSeq pat (x :: xs) then some 0
    else (idxOfSeq? pat xs).map (· + 1)

/-- First character test, mirroring Rust's `str::starts_with(char)`. -/
def strStartsWithChar (t : String) (c : Char) : Bool :=
  match t.data with
  | [] => false
  | x :: _ => x = c

/-- Last character test, mirroring Rust's `str::ends_with(char)`. -/
def strEndsWithChar (t : String) (c : Char) : Bool :=
  match t.data.getLast? with
  | some x => x = c
  | none => false

/-- Character membership, mirroring Rust's `str::contains(char)`. -/
def containsChar (c : Char) (l : List Char) : Bool := l.any (fun x => x = c)

/-- Replace every occurrence of the character `c` by the string `r`, mirroring
Rust's `str::replace(char, &str)`. -/
def replaceChar (c : Char) (r : List Char) : List Char → List Char
  | [] => []
  | x :: xs => if x = c then r ++ replaceChar c r xs else x :: replaceChar c r xs

/-- The backtick character (the monospace marker of `parser.rs`). -/
def backtick : Char := Char.ofNat 96

/-- The single-quote character (escaped by `escape_html` in `ast.rs`). -/
def squote : Char := Char.ofNat 39

/-! ## The AST (`src/ast.rs`) -/

/-- Embedding of `FormattedTextKind` from `ast.rs`. -/
inductive FormattedTextKind
  | strong
  | emphasis
  | monospace
  | superscript
  | subscript
deriving Repr, BEq

/-- Embedding of `MacroKind` from `ast.rs`. -/
inductive MacroKind
  | link (url : String) (text : Option String)
  | image (path : String) (attributes : Option String)
  | crossReference (target : String) (text : Option String)
deriving Repr, BEq

/-- Embedding of `InlineElement` from `ast.rs` (`mac` embeds the Rust `Macro` variant). -/
inductive InlineElement
  | text (s : String)
  | formatted (kind : FormattedTextKind) (content : List InlineElement)
  | mac (kind : MacroKind)
  | lineBreak
deriving Repr

/-- Embedding of `DelimitedBlockKind` from `ast.rs` (`exampleB` embeds the Rust `Example`). -/
inductive DelimitedBlockKind
  | listing
  | exampleB
  | literal
  | sidebar
  | quote
deriving Repr, BEq

/-- Embedding of `ListKind` from `ast.rs`. -/
inductive ListKind
  | unordered
  | ordered
  | description
deriving Repr, BEq

/-- Embedding of `BlockMetadataKind` from `ast.rs`. -/
inductive BlockMetadataKind
  | title (t : String)
  | attributeList (attrs : List String)
  | anchor (a : String)
deriving Repr, BEq

/-- Embedding of `ListItem` from `ast.rs`. -/
inductive ListItem
  | unordered (level : Nat) (content : List InlineElement)
  | ordered (level : Nat) (content : List InlineElement)
  | description (term : String) (descr : Option (List InlineElement))
deriving Repr

/-- Embedding of `Block` from `ast.rs` (`sectionB` embeds the Rust `Section`). -/
inductive Block
  | sectionB (level : Nat) (title : String) (blocks : List Block)
  | paragraph (content : List InlineElement)
  | delimitedBlock (kind : DelimitedBlockKind) (content : String) (language : Option String)
  | list (kind : ListKind) (items : List ListItem)
  | blockMetadata (kind : BlockMetadataKind)
deriving Repr

/-- Embedding of `Attribute` from `ast.rs`. -/
structure Attribute where
  name : String
  value : Option String
deriving Repr, BEq

/-- Embedding of `Header` from `ast.rs`. -/
structure Header where
  title : String
  attributes : List Attribute
deriving Repr, BEq

/-- Embedding of `Document` from `ast.rs`. -/
structure Document where
  header : Option Header
  body : List Block
deriving Repr

/-! ## The inline scanner (`parser.rs`, `parse_paragraph_content`, lines 552-827)

The Rust loop keeps a cursor `current_pos` and only ever inspects
`text[current_pos..]`, so it is embedded as a recursion on the remaining
suffix.  `scanStep` performs one iteration of the loop body on a non-empty
suffix, returning the elements pushed during that iteration and the number of
characters consumed (`new current_pos - old current_pos`). -/

/-- The nine markers recognized by the scanner's marker search. -/
inductive Marker
  | sym (c : Char)
  | linkM
  | httpsM
  | httpM
  | xrefM
deriving Repr, DecidableEq

/-- The marker patterns in the order the Rust code probes them
(`*`, `_`, backtick, `^`, `~`, `link:`, `https://`, `http://`, `<<`). -/
def markerCandidates : List (List Char × Marker) :=
  [(['*'], .sym '*'), (['_'], .sym '_'), ([backtick], .sym backtick),
   (['^'], .sym '^'), (['~'], .sym '~'),
   ("link:".data, .linkM), ("https://".data, .httpsM), ("http://".data, .httpM),
   ("<<".data, .xrefM)]

/-- One update of the `earliest_pos` / `marker_type` pair: adopt the candidate
only when it occurs strictly earlier than the current best. -/
def updateCand (remaining : List Char) (acc : Nat × Option Marker)
    (pm : List Char × Marker) : Nat × Option Marker :=
  match idxOfSeq? pm.1 remaining with
  | some p => if p < acc.1 then (p, some pm.2) else acc
  | none => acc

/-- The marker search of lines 556-616: earliest occurrence wins, probed in
source order, initial best is `remaining.len()` with no marker. -/
def findEarliest (remaining : List Char) : Nat × Option Marker :=
  markerCandidates.foldl (updateCand remaining) (remaining.length, none)

/-- The `FormattedTextKind` selected for each symmetric marker character. -/
def formattedKindOf (c : Char) : FormattedTextKind :=
  if c = '*' then .strong
  else if c = '_' then .emphasis
  else if c = backtick then .monospace
  else if c = '^' then .superscript
  else .subscript

/-- The bare-URL end scan of lines 726-746: walk the text starting at the URL
scheme and stop at the first whitespace, `,`, `)`, `>`, sentence-ending `.`
(followed by whitespace or end of input), or `[`.  Returns how many
characters belong to the URL. -/
def urlEnd : List Char → Nat
  | [] => 0
  | c :: rest =>
    if isWsRust c || c = ',' || c = ')' || c = '>' then 0
    else if c = '.' && (match rest with | [] => true | d :: _ => isWsRust d) then 0
    else if c = '[' then 0
    else 1 + urlEnd rest

/-- One iteration of the scanning loop of lines 556-824 on the non-empty
suffix `remaining`: the elements pushed and the characters consumed. -/
def scanStep (remaining : List Char) : List InlineElement × Nat :=
  match findEarliest remaining with
  | (_, none) => ([.text ⟨remaining⟩], remaining.length)
  | (p, some m) =>
    let pre : List InlineElement := if 0 < p then [.text ⟨remaining.take p⟩] else []
    match m with
    | .sym c =>
      match idxOfSeq? [c] (remaining.drop (p + 1)) with
      | some e =>
        (pre ++ [.formatted (formattedKindOf c) [.text ⟨(remaining.drop (p + 1)).take e⟩]],
         p + 1 + e + 1)
      | none => (pre ++ [.text ⟨[c]⟩], p + 1)
    | .linkM =>
      let after := remaining.drop p
      match idxOfSeq? ['['] after with
      | some b =>
        match idxOfSeq? [']'] (after.drop b) with
        | some j =>
          let url : List Char := (after.drop 5).take (b - 5)
          let ltext : List Char := (after.drop (b + 1)).take (j - 1)
          (pre ++ [.mac (.link ⟨url⟩ (if ltext.isEmpty then none else some ⟨ltext⟩))],
           p + b + j + 1)
        | none => (pre ++ [.text "link:"], p + 5)
      | none => (pre ++ [.text "link:"], p + 5)
    | .httpsM | .httpM =>
      let after := remaining.drop p
      let e := urlEnd after
      let url : List Char := after.take e
      match after.drop e with
      | c0 :: restB =>
        if c0 = '[' then
          match idxOfSeq? [']'] restB with
          | some j =>
            let ltext : List Char := restB.take j
            (pre ++ [.mac (.link ⟨url⟩ (if ltext.isEmpty then none else some ⟨ltext⟩))],
             p + e + 1 + j + 1)
          | none => (pre ++ [.mac (.link ⟨url⟩ (some ⟨url⟩))], p + e)
        else (pre ++ [.mac (.link ⟨url⟩ (some ⟨url⟩))], p + e)
      | [] => (pre ++ [.mac (.link ⟨url⟩ (some ⟨url⟩))], p + e)
    | .xrefM =>
      let after := remaining.drop p
      match idxOfSeq? ['>', '>'] (after.drop 2) with
      | some e =>
        let inner : List Char := (after.drop 2).take e
        (match idxOfSeq? [','] inner with
         | some cp =>
           let target : List Char := trimList (inner.take cp)
           let xt : List Char := trimList (inner.drop (cp + 1))
           pre ++ [.mac (.crossReference ⟨target⟩ (if xt.isEmpty then none else some ⟨xt⟩))]
         | none => pre ++ [.mac (.crossReference ⟨inner⟩ none)],
         p + 2 + e + 2)
      | none => (pre ++ [.text "<<"], p + 2)

/-- The scanning loop, driven by fuel.  With fuel at least the length of the
suffix this is exactly the Rust loop (each iteration consumes at least one
character, see `scanStep_consumes_pos`). -/
def scanWithFuel : Nat → List Char → List InlineElement
  | 0, _ => []
  | fuel + 1, remaining =>
    if remaining.isEmpty then []
    else (scanStep remaining).1 ++ scanWithFuel fuel (remaining.drop (scanStep remaining).2)

/-- The scanner on a character list, with enough fuel for the whole input. -/
def scanInline (l : List Char) : List InlineElement := scanWithFuel l.length l

/-- Embedding of `parse_paragraph_content` from `parser.rs` (lines 552-827). -/
def parse_paragraph_content (text : String) : List InlineElement := scanInline text.data

/-- The line loop of `parse_paragraph` (lines 394-414 of `parser.rs`) with
its two mutable locals (`content`, `first_line`) as accumulator arguments:
before scanning a line, push a single-space `Text` when this is not the
first line and content has accumulated. -/
def parseParaLoop : List InlineElement → Bool → List String → List InlineElement
  | content, _, [] => content
  | content, first, line :: rest =>
    let content :=
      if !first && !content.isEmpty then content ++ [.text " "] else content
    parseParaLoop (content ++ parse_paragraph_content line) false rest

/-- Embedding of `parse_paragraph` from `parser.rs` (lines 394-414), abstracted over the
paragraph's source lines (the `paragraph_text` of each `paragraph_line`). -/
def parse_paragraph_lines (lines : List String) : List InlineElement :=
  parseParaLoop [] true lines

/-- Embedding of `parse_section` from `parser.rs` (lines 187-193) applied to the matched
section line: level is the count of leading `=`, title is the rest trimmed. -/
def parse_section (content : String) : Block :=
  let level := (content.data.takeWhile (fun c => c = '=')).length
  let title : String := ⟨trimList (content.data.dropWhile (fun c => c = '='))⟩
  .sectionB level title []

/-! ## Attribute reconciliation (`parser.rs`, lines 111-147 and 260-275) -/

/-- The inner loop of `extract_language_from_attributes`: first entry that
begins with `,` yields its remainder; otherwise the first non-empty entry
containing neither `=` nor `:` is the language. -/
def extractLangLoop : List String → Option String
  | [] => none
  | attr :: rest =>
    let trimmed : String := ⟨trimList attr.data⟩
    if strStartsWithChar trimmed ',' then some ⟨trimmed.data.drop 1⟩
    else if !trimmed.data.isEmpty && !containsChar '=' trimmed.data &&
        !containsChar ':' trimmed.data then some trimmed
    else extractLangLoop rest

/-- Embedding of `extract_language_from_attributes` from `parser.rs` (lines 260-275). -/
def extract_language_from_attributes : Option (List String) → Option String
  | some attrs => extractLangLoop attrs
  | none => none

/-- The firing test of `process_block_attributes` at position `i`
(lines 114-125 of `parser.rs`): `blocks[i]` is a paragraph whose sole inline
element is a `Text` starting with `[` and ending with `]`, and
`blocks[i + 1]` exists and is a delimited block.  On success it returns that
delimited block's kind and content together with the paragraph text. -/
def fireAt (blocks : List Block) (i : Nat) : Option (DelimitedBlockKind × String × String) :=
  match blocks.get? i, blocks.get? (i + 1) with
  | some (.paragraph [.text t]), some (.delimitedBlock k c _) =>
    if strStartsWithChar t '[' && strEndsWithChar t ']' then some (k, c, t) else none
  | _, _ => none

/-- The `while i < blocks.len()` loop of `process_block_attributes`
(lines 111-147), driven by fuel.  When the firing test holds at `i`, the
delimited block's language is replaced by the one derived from the bracket
interior of `t` (split on `,`, entries trimmed), the paragraph is removed,
and `i` is kept; otherwise `i` advances.  Each iteration lowers
`blocks.len() - i` by exactly one, so fuel `blocks.length` runs the loop to
completion. -/
def processFrom : Nat → List Block → Nat → List Block
  | 0, blocks, _ => blocks
  | fuel + 1, blocks, i =>
    match blocks.get? i with
    | none => blocks
    | some _ =>
      match fireAt blocks i with
      | some (k, c, t) =>
        let attrContent : List Char := (t.data.drop 1).dropLast
        let attributes : List String :=
          (splitChar ',' attrContent).map (fun s => ⟨trimList s⟩)
        processFrom fuel
          ((blocks.set (i + 1)
            (.delimitedBlock k c (extract_language_from_attributes (some attributes)))).eraseIdx i)
          i
      | none => processFrom fuel blocks (i + 1)

/-- Embedding of `process_block_attributes` from `parser.rs` (lines 111-147). -/
def process_block_attributes (blocks : List Block) : List Block :=
  processFrom blocks.length blocks 0

/-! ## The HTML emitter (`src/ast.rs`) -/

/-- Embedding of `escape_html` from `ast.rs` (lines 254-260): the five replacements applied in
source order, ampersand first. -/
def escape_html (text : String) : String :=
  ⟨replaceChar squote "&#39;".data
    (replaceChar '"' "&quot;".data
      (replaceChar '>' "&gt;".data
        (replaceChar '<' "&lt;".data
          (replaceChar '&' "&amp;".data text.data))))⟩

mutual

/-- Embedding of `InlineElement::to_html` from `ast.rs` (lines 216-248). -/
def inlineToHtml : InlineElement → String
  | .text t => escape_html t
  | .formatted kind content =>
    let inner := inline_elements_to_html content
    match kind with
    | .strong => "<strong>" ++ inner ++ "</strong>"
    | .emphasis => "<em>" ++ inner ++ "</em>"
    | .monospace => "<code>" ++ inner ++ "</code>"
    | .superscript => "<sup>" ++ inner ++ "</sup>"
    | .subscript => "<sub>" ++ inner ++ "</sub>"
  | .mac (.link url t) =>
    let linkText := match t with | some s => escape_html s | none => escape_html url
    "<a href=\"" ++ escape_html url ++ "\">" ++ linkText ++ "</a>"
  | .mac (.image path attrs) =>
    let alt := match attrs with | some a => escape_html a | none => "Image"
    "<img src=\"" ++ escape_html path ++ "\" alt=\"" ++ alt ++ "\">"
  | .mac (.crossReference target t) =>
    let linkText := match t with | some s => escape_html s | none => escape_html target
    "<a href=\"#" ++ escape_html target ++ "\">" ++ linkText ++ "</a>"
  | .lineBreak => "<br>\n"

/-- Embedding of `inline_elements_to_html` from `ast.rs` (lines 250-252). -/
def inline_elements_to_html : List InlineElement → String
  | [] => ""
  | e :: es => inlineToHtml e ++ inline_elements_to_html es

end

/-- Embedding of `ListItem::to_html` from `ast.rs` (lines 199-212). -/
def listItemToHtml : ListItem → String
  | .unordered _ content => "<li>" ++ inline_elements_to_html content ++ "</li>\n"
  | .ordered _ content => "<li>" ++ inline_elements_to_html content ++ "</li>\n"
  | .description term descr =>
    "<dt>" ++ escape_html term ++ "</dt>\n" ++
      (match descr with
       | some d => "<dd>" ++ inline_elements_to_html d ++ "</dd>\n"
       | none => "")

/-- Concatenation of `ListItem::to_html` over a list's items. -/
def listItemsToHtml : List ListItem → String
  | [] => ""
  | it :: its => listItemToHtml it ++ listItemsToHtml its

mutual

/-- Embedding of `Block::to_html` from `ast.rs` (lines 137-195). -/
def blockToHtml : Block → String
  | .sectionB level title blocks =>
    let headingLevel := min level 6
    "<h" ++ toString headingLevel ++ ">" ++ escape_html title ++ "</h" ++
      toString headingLevel ++ ">\n" ++ blocksToHtml blocks
  | .paragraph content => "<p>" ++ inline_elements_to_html content ++ "</p>\n"
  | .delimitedBlock kind content language =>
    match kind with
    | .listing =>
      match language with
      | some lang =>
        "<pre><code class=\"language-" ++ escape_html lang ++ "\">" ++
          escape_html content ++ "</code></pre>\n"
      | none => "<pre><code>" ++ escape_html content ++ "</code></pre>\n"
    | .exampleB => "<div class=\"example\">" ++ escape_html content ++ "</div>\n"
    | .literal => "<pre>" ++ escape_html content ++ "</pre>\n"
    | .sidebar => "<aside>" ++ escape_html content ++ "</aside>\n"
    | .quote => "<blockquote>" ++ escape_html content ++ "</blockquote>\n"
  | .list kind items =>
    match kind with
    | .unordered => "<ul>\n" ++ listItemsToHtml items ++ "</ul>\n"
    | .ordered => "<ol>\n" ++ listItemsToHtml items ++ "</ol>\n"
    | .description => "<dl>\n" ++ listItemsToHtml items ++ "</dl>\n"
  | .blockMetadata _ => ""

/-- Concatenation of `Block::to_html` over consecutive blocks. -/
def blocksToHtml : List Block → String
  | [] => ""
  | b :: bs => blockToHtml b ++ blocksToHtml bs

end

/-- Embedding of `Document::to_html` from `ast.rs` (lines 8-21). -/
def documentToHtml (d : Document) : String :=
  (match d.header with
   | some h => "<h1>" ++ escape_html h.title ++ "</h1>\n"
   | none => "") ++ blocksToHtml d.body

/-! ## Spec-modelled block layer

The pest grammar file `asciidoc.pest` referenced by `parser.rs` is not part of
`src/`, so the line-oriented block recognizer is modelled from the
specification (spec §4.1) rather than embedded from code.  Only the
productions the claims exercise are modelled: header, section headings,
delimited blocks, and paragraphs; per spec §4.3, a column-1 bracket line
surfaces as an ordinary paragraph (the reconciliation pass, which is embedded
from code, then consumes it). -/

/-- Modelled from the spec (§4.1, production 2): a section heading line has
two to six leading `=` followed by a space and title text. -/
def isSectionLine (l : String) : Bool :=
  let n := (l.data.takeWhile (fun c => c = '=')).length
  2 ≤ n && n ≤ 6 && (match l.data.drop n with | ' ' :: _ :: _ => true | _ => false)

/-- Modelled from the spec (§4.1, production 3): a delimiter line is a single
repeated delimiter character of length at least 4 (`----` listing, `====`
example, `....` literal, `****` sidebar, `____` quote). -/
def delimKindOf (l : String) : Option DelimitedBlockKind :=
  match l.data with
  | [] => none
  | c :: rest =>
    if 4 ≤ (c :: rest).length && rest.all (fun x => x = c) then
      if c = '-' then some .listing
      else if c = '=' then some .exampleB
      else if c = '.' then some .literal
      else if c = '*' then some .sidebar
      else if c = '_' then some .quote
      else none
    else none

/-- Modelled from the spec (§4.1, production 6): a paragraph run continues
over non-blank lines that start no higher-priority construct. -/
def paraContinues (l : String) : Bool :=
  !l.data.isEmpty && !isSectionLine l && (delimKindOf l).isNone

/-- Lines joined with `\n` (the verbatim interior of a delimited block). -/
def joinLinesNL : List String → String
  | [] => ""
  | [l] => l
  | l :: ls => l ++ "\n" ++ joinLinesNL ls

/-- Modelled from the spec (§4.1): the body recognizer over the remaining
lines, by production precedence — blank lines skipped, then section heading,
then delimited block (content up to the exact matching closer, taken
verbatim), then paragraph.  Fuel is the number of lines; every step consumes
at least one line. -/
def parseBlocksModel : Nat → List String → List Block
  | 0, _ => []
  | _ + 1, [] => []
  | fuel + 1, line :: rest =>
    if line.data.isEmpty then parseBlocksModel fuel rest
    else if isSectionLine line then parse_section line :: parseBlocksModel fuel rest
    else
      match delimKindOf line with
      | some kind =>
        let content := rest.takeWhile (fun l => !(l = line : Bool))
        let rest' := (rest.dropWhile (fun l => !(l = line : Bool))).drop 1
        .delimitedBlock kind (joinLinesNL content) none :: parseBlocksModel fuel rest'
      | none =>
        let paraLines := line :: rest.takeWhile paraContinues
        let rest' := rest.dropWhile paraContinues
        .paragraph (parse_paragraph_lines paraLines) :: parseBlocksModel fuel rest'

/-- Modelled from the spec (§3, §4.1): a header attribute line `:name: value`
(value trimmed, absent when empty — as in `parse_header_attribute` of
`parser.rs`). -/
def parseHeaderAttrModel (l : String) : Option Attribute :=
  match l.data with
  | ':' :: inner =>
    match idxOfSeq? [':'] inner with
    | some j =>
      let value := trimList (inner.drop (j + 1))
      some ⟨⟨inner.take j⟩, if value.isEmpty then none else some ⟨value⟩⟩
    | none => none
  | _ => none

/-- Modelled from the spec (§4.1 production 1, §6): split the input into
`\n`-terminated lines; a header exists only when the first line begins with
`"= "`; header attribute lines follow and the header ends at the first blank
line; the remaining lines form the body, which `parse_body` (embedded from
`parser.rs`) post-processes with `process_block_attributes`.  The grammar's
rejection paths cannot be modelled (the grammar file is absent), so the model
is total. -/
def parse_document_model (input : String) : Option Document :=
  let lines : List String := (splitChar '\n' input.data).map (fun l => (⟨l⟩ : String))
  match lines with
  | [] => some ⟨none, []⟩
  | l0 :: rest =>
    if startsWithSeq "= ".data l0.data then
      let title : String := ⟨trimList (l0.data.drop 2)⟩
      let attrs := (rest.takeWhile (fun l => strStartsWithChar l ':')).filterMap parseHeaderAttrModel
      let rest' := rest.dropWhile (fun l => strStartsWithChar l ':')
      let bodyLines := match rest' with
        | b :: more => if b.data.isEmpty then more else b :: more
        | [] => []
      some ⟨some ⟨title, attrs⟩,
        process_block_attributes (parseBlocksModel bodyLines.length bodyLines)⟩
    else some ⟨none, process_block_attributes (parseBlocksModel lines.length lines)⟩

/-! ## Specification-side definitions

These definitions formalise the words of the spec and the claims (rather than
the code) and are compared with the embedded functions in the theorems. -/

/-- The marker character written in source for each formatting kind. -/
def markerCharOf : FormattedTextKind → Char
  | .strong => '*'
  | .emphasis => '_'
  | .monospace => backtick
  | .superscript => '^'
  | .subscript => '~'

mutual

/-- Textual rendering of an inline element with the formatting markers
reinstated: a `Formatted` element renders as marker, interior, marker; a
macro renders in its source form; plain text renders as itself. -/
def renderInline : InlineElement → List Char
  | .text s => s.data
  | .formatted kind content =>
    markerCharOf kind :: renderInlines content ++ [markerCharOf kind]
  | .mac (.link url t) =>
    "link:".data ++ url.data ++
      '[' :: (match t with | some s => s.data | none => []) ++ [']']
  | .mac (.image path attrs) =>
    "image:".data ++ path.data ++
      '[' :: (match attrs with | some s => s.data | none => []) ++ [']']
  | .mac (.crossReference target t) =>
    "<<".data ++ target.data ++
      (match t with | some s => ',' :: s.data | none => []) ++ ">>".data
  | .lineBreak => []

/-- Concatenated marker-reinstating rendering of a sequence. -/
def renderInlines : List InlineElement → List Char
  | [] => []
  | e :: es => renderInline e ++ renderInlines es

end

mutual

/-- The plain text carried by an inline element, all formatting markers
removed (the reading of claim C3): a `Formatted` element contributes only its
interior text. -/
def plainInline : InlineElement → List Char
  | .text s => s.data
  | .formatted _ content => plainInlines content
  | .mac (.link url t) => (match t with | some s => s | none => url).data
  | .mac (.image path _) => path.data
  | .mac (.crossReference target t) => (match t with | some s => s | none => target).data
  | .lineBreak => []

/-- Concatenated plain text of a sequence of inline elements. -/
def plainInlines : List InlineElement → List Char
  | [] => []
  | e :: es => plainInline e ++ plainInlines es

end

/-- Lines joined with single spaces (spec §4.1 production 6). -/
def joinSpaces : List String → String
  | [] => ""
  | [l] => l
  | l :: ls => l ++ " " ++ joinSpaces ls

/-- The shape on which the reconciliation pass fires (the code's test in
`process_block_attributes`): a paragraph whose single inline element is a
`Text` that starts with `[` and ends with `]`. -/
def isAttrParagraph : Block → Bool
  | .paragraph [.text t] => strStartsWithChar t '[' && strEndsWithChar t ']'
  | _ => false

/-- The claim's pattern: a paragraph whose single inline element is a `Text`
matching the regex `^\[[^\]]*\]$` (starts with `[`, ends with `]`, and no
`]` inside the bracket interior). -/
def regexAttrParagraph : Block → Bool
  | .paragraph [.text t] =>
    strStartsWithChar t '[' && strEndsWithChar t ']' &&
      !containsChar ']' ((t.data.drop 1).dropLast)
  | _ => false

/-- Is the block a `DelimitedBlock`? -/
def isDelimited : Block → Bool
  | .delimitedBlock _ _ _ => true
  | _ => false

/-- No attribute-shaped paragraph sits immediately before a delimited block
(the code-shape version of the spec's reconciliation invariant). -/
abbrev CleanList (l : List Block) : Prop :=
  List.Chain' (fun a b => ¬(isAttrParagraph a = true ∧ isDelimited b = true)) l

/-- The claim's invariant: no paragraph whose single `Text` matches
`^\[[^\]]*\]$` sits immediately before a delimited block. -/
abbrev RegexCleanList (l : List Block) : Prop :=
  List.Chain' (fun a b => ¬(regexAttrParagraph a = true ∧ isDelimited b = true)) l

/-- No two adjacent attribute-shaped paragraphs. -/
abbrev NoAdjacentAttr (l : List Block) : Prop :=
  List.Chain' (fun a b => ¬(isAttrParagraph a = true ∧ isAttrParagraph b = true)) l

/-- The language the reconciliation pass derives from the bracket paragraph
text `t`: split the interior on commas, trim, and extract. -/
def derivedLanguage (t : String) : Option String :=
  extract_language_from_attributes
    (some ((splitChar ',' ((t.data.drop 1).dropLast)).map (fun s => ⟨trimList s⟩)))

/-- The claim's URL-terminator condition at position `j` of the text: a
whitespace character, `,`, `)`, `>`, `[`, or a `.` followed by whitespace or
end of input. -/
def urlBreakAt (l : List Char) (j : Nat) : Prop :=
  match l.get? j with
  | some c =>
    isWsRust c = true ∨ c = ',' ∨ c = ')' ∨ c = '>' ∨
      (c = '.' ∧ (match l.get? (j + 1) with
        | some d => isWsRust d = true
        | none => True)) ∨ c = '['
  | none => False

/-- A text containing none of the four macro-marker patterns (`link:`,
`https://`, `http://`, `<<`), stated with the embedded substring search. -/
abbrev MacroFree (l : List Char) : Prop :=
  idxOfSeq? "link:".data l = none ∧ idxOfSeq? "https://".data l = none ∧
    idxOfSeq? "http://".data l = none ∧ idxOfSeq? "<<".data l = none

/-- The inline elements contributed by the second and later lines of a
paragraph: each line contributes a single-space `Text` and then its scan. -/
def glueLines : List String → List InlineElement
  | [] => []
  | l :: ls => .text " " :: (parse_paragraph_content l ++ glueLines ls)

/-! ## Lemmas about the reconciliation loop -/

/-- The firing test is position-shift invariant. -/
theorem fireAt_cons_succ (x : Block) (xs : List Block) (i : Nat) :
    fireAt (x :: xs) (i + 1) = fireAt xs i := by
  simp only [fireAt, List.get?_cons_succ]

/-- The loop never re-inspects committed positions: running it on `x :: xs`
from index `i + 1` leaves `x` in place and acts as the loop on `xs` from
index `i`. -/
theorem processFrom_cons_succ (fuel : Nat) :
    ∀ (x : Block) (xs : List Block) (i : Nat),
      processFrom fuel (x :: xs) (i + 1) = x :: processFrom fuel xs i := by
  induction fuel with
  | zero => intro x xs i; rfl
  | succ f ih =>
    intro x xs i
    simp only [processFrom, List.get?_cons_succ, fireAt_cons_succ]
    rcases hx : xs.get? i with _ | b
    · simp [hx]
    · rcases hf : fireAt xs i with _ | ⟨k, c, t⟩
      · simp [hx, hf, ih]
      · simp [hx, hf, List.set_cons_succ, List.eraseIdx_cons_succ, ih]

/-- The pass leaves the empty list unchanged. -/
theorem process_nil : process_block_attributes [] = [] := rfl

/-- Unfolding of the pass when the firing test holds at the head: the
delimited block keeps its kind and content, its language is replaced by the
derived one, the paragraph is removed, and the loop re-runs from the start of
the shortened list. -/
theorem process_cons_fire (t : String) (k : DelimitedBlockKind) (c : String)
    (lang : Option String) (rest : List Block)
    (h1 : strStartsWithChar t '[' = true) (h2 : strEndsWithChar t ']' = true) :
    process_block_attributes
      (.paragraph [.text t] :: .delimitedBlock k c lang :: rest) =
      process_block_attributes (.delimitedBlock k c (derivedLanguage t) :: rest) := by
  simp only [process_block_attributes, List.length_cons, processFrom, List.get?_cons_zero,
    fireAt, List.get?_cons_succ, h1, h2, Bool.and_self, if_true, List.set_cons_succ,
    List.set_cons_zero, List.eraseIdx_cons_zero, derivedLanguage]

/-- Unfolding of the pass when the firing test fails at the head. -/
theorem process_cons_advance (b : Block) (rest : List Block)
    (h : fireAt (b :: rest) 0 = none) :
    process_block_attributes (b :: rest) = b :: process_block_attributes rest := by
  simp only [process_block_attributes, List.length_cons, processFrom, List.get?_cons_zero, h]
  exact processFrom_cons_succ _ _ _ _

/-- A successful firing test at the head exposes the shapes of the first two
blocks. -/
theorem fireAt_zero_some {b : Block} {rest : List Block}
    {k : DelimitedBlockKind} {c t : String}
    (h : fireAt (b :: rest) 0 = some (k, c, t)) :
    b = .paragraph [.text t] ∧ strStartsWithChar t '[' = true ∧
      strEndsWithChar t ']' = true ∧
      ∃ lang rest', rest = .delimitedBlock k c lang :: rest' := by
  rcases b with ⟨l1, t1, b1⟩ | content | ⟨k1, c1, g1⟩ | ⟨l2, i2⟩ | m1
  case paragraph =>
    rcases content with _ | ⟨e, es⟩
    · exact Option.noConfusion h
    rcases e with t0 | ⟨fk, fc⟩ | m3 | _
    case text =>
      rcases es with _ | ⟨e2, es2⟩
      · rcases rest with _ | ⟨r0, rest2⟩
        · exact Option.noConfusion h
        rcases r0 with ⟨l3, t3, b3⟩ | c3 | ⟨k2, c2, g2⟩ | ⟨l4, i4⟩ | m4
        case delimitedBlock =>
          have h' : (if (strStartsWithChar t0 '[' && strEndsWithChar t0 ']') = true
              then some (k2, c2, t0) else none) = some (k, c, t) := h
          by_cases hb : (strStartsWithChar t0 '[' && strEndsWithChar t0 ']') = true
          · rw [if_pos hb] at h'
            injection h' with h2
            rw [Prod.mk.injEq, Prod.mk.injEq] at h2
            obtain ⟨rfl, rfl, rfl⟩ := h2
            have hb2 := hb
            simp only [Bool.and_eq_true] at hb2
            rcases hb2 with ⟨hs, he⟩
            exact ⟨rfl, hs, he, g2, rest2, rfl⟩
          · rw [if_neg hb] at h'
            exact Option.noConfusion h'
        all_goals exact Option.noConfusion h
      · exact Option.noConfusion h
    all_goals exact Option.noConfusion h
  all_goals exact Option.noConfusion h

/-- An attribute-shaped paragraph is a single-`Text` bracket paragraph. -/
theorem isAttrParagraph_shape {b : Block} (h : isAttrParagraph b = true) :
    ∃ t, b = .paragraph [.text t] ∧ strStartsWithChar t '[' = true ∧
      strEndsWithChar t ']' = true := by
  rcases b with ⟨l1, t1, b1⟩ | content | ⟨k1, c1, g1⟩ | ⟨l2, i2⟩ | m1
  case paragraph =>
    rcases content with _ | ⟨e, es⟩
    · exact Bool.noConfusion h
    rcases e with t0 | ⟨fk, fc⟩ | m3 | _
    case text =>
      rcases es with _ | ⟨e2, es2⟩
      · have h' : (strStartsWithChar t0 '[' && strEndsWithChar t0 ']') = true := h
        simp only [Bool.and_eq_true] at h'
        rcases h' with ⟨hs, he⟩
        exact ⟨t0, rfl, hs, he⟩
      · exact Bool.noConfusion h
    all_goals exact Bool.noConfusion h
  all_goals exact Bool.noConfusion h

/-- A delimited block is a `delimitedBlock`. -/
theorem isDelimited_shape {b : Block} (h : isDelimited b = true) :
    ∃ k c lang, b = .delimitedBlock k c lang := by
  rcases b with ⟨l1, t1, b1⟩ | content | ⟨k1, c1, g1⟩ | ⟨l2, i2⟩ | m1
  case delimitedBlock => exact ⟨k1, c1, g1, rfl⟩
  all_goals exact Bool.noConfusion h

/-- A non-attribute-shaped head never fires. -/
theorem fireAt_zero_of_not_attr {b : Block} (rest : List Block)
    (h : isAttrParagraph b = false) : fireAt (b :: rest) 0 = none := by
  rcases hf : fireAt (b :: rest) 0 with _ | ⟨⟨k, c, t⟩⟩
  · rfl
  · rcases fireAt_zero_some hf with ⟨hb, h1, h2, _⟩
    subst hb
    have h' : (strStartsWithChar t '[' && strEndsWithChar t ']') = false := h
    rw [h1, h2] at h'
    exact Bool.noConfusion h'

/-- An attribute-shaped head followed by a delimited block fires. -/
theorem fireAt_zero_of_attr_delim {b r0 : Block} (rest2 : List Block)
    (hb : isAttrParagraph b = true) (hr : isDelimited r0 = true) :
    fireAt (b :: r0 :: rest2) 0 ≠ none := by
  rcases isAttrParagraph_shape hb with ⟨t, rfl, h1, h2⟩
  rcases isDelimited_shape hr with ⟨k, c, lang, rfl⟩
  intro hcon
  have h' : (if (strStartsWithChar t '[' && strEndsWithChar t ']') = true
      then some (k, c, t) else none) = (none : Option (DelimitedBlockKind × String × String)) :=
    hcon
  rw [if_pos (by rw [h1, h2]; rfl)] at h'
  exact Option.noConfusion h'

/-- The claim's regex pattern implies the code's bracket test. -/
theorem attr_of_regex {b : Block} (h : regexAttrParagraph b = true) :
    isAttrParagraph b = true := by
  rcases b with ⟨l1, t1, b1⟩ | content | ⟨k1, c1, g1⟩ | ⟨l2, i2⟩ | m1
  case paragraph =>
    rcases content with _ | ⟨e, es⟩
    · exact Bool.noConfusion h
    rcases e with t0 | ⟨fk, fc⟩ | m3 | _
    case text =>
      rcases es with _ | ⟨e2, es2⟩
      · have h' : (strStartsWithChar t0 '[' && strEndsWithChar t0 ']' &&
            !containsChar ']' ((t0.data.drop 1).dropLast)) = true := h
        simp only [Bool.and_eq_true] at h'
        rcases h' with ⟨⟨hs, he⟩, _⟩
        have hgoal : (strStartsWithChar t0 '[' && strEndsWithChar t0 ']') = true := by
          rw [hs, he]; rfl
        exact hgoal
      · exact Bool.noConfusion h
    all_goals exact Bool.noConfusion h
  all_goals exact Bool.noConfusion h

/-- Main invariant-preservation lemma: on a block list with no two adjacent
attribute-shaped paragraphs, the reconciliation pass leaves no
attribute-shaped paragraph immediately before a delimited block. -/
theorem processClean :
    ∀ (n : Nat) (l : List Block), l.length ≤ n → NoAdjacentAttr l →
      CleanList (process_block_attributes l) := by
  intro n
  induction n with
  | zero =>
    intro l hl _
    have hnil : l = [] := List.length_eq_zero.mp (Nat.le_zero.mp hl)
    subst hnil
    exact List.chain'_nil
  | succ n ih =>
    intro l hl hadj
    rcases l with _ | ⟨b, rest⟩
    · exact List.chain'_nil
    rcases hf : fireAt (b :: rest) 0 with _ | ⟨⟨k, c, t⟩⟩
    · rw [process_cons_advance b rest hf]
      refine List.chain'_cons'.mpr ⟨?_, ?_⟩
      · intro y hy
        by_cases hb : isAttrParagraph b = true
        · rcases rest with _ | ⟨r0, rest2⟩
          · rw [process_nil] at hy
            exact absurd hy (by simp)
          · have hpair := (List.chain'_cons.mp hadj).1
            have hr0attr : isAttrParagraph r0 = false := by
              rcases hr0 : isAttrParagraph r0 with _ | _
              · rfl
              · exact absurd ⟨hb, hr0⟩ hpair
            rw [process_cons_advance r0 rest2 (fireAt_zero_of_not_attr rest2 hr0attr)] at hy
            simp only [List.head?_cons, Option.mem_def, Option.some.injEq] at hy
            subst hy
            rintro ⟨_, hdel⟩
            exact fireAt_zero_of_attr_delim rest2 hb hdel hf
        · rintro ⟨hb', _⟩
          exact hb hb'
      · refine ih rest ?_ (List.Chain'.tail hadj)
        simp only [List.length_cons] at hl
        omega
    · rcases fireAt_zero_some hf with ⟨rfl, h1, h2, lang, rest', rfl⟩
      rw [process_cons_fire t k c lang rest' h1 h2]
      refine ih _ ?_ ?_
      · simp only [List.length_cons] at hl ⊢
        omega
      · refine List.chain'_cons'.mpr ⟨?_, List.Chain'.tail (List.Chain'.tail hadj)⟩
        rintro y hy ⟨habs, _⟩
        exact Bool.noConfusion habs

/-- On a list where no attribute-shaped paragraph precedes a delimited block,
the reconciliation pass is the identity. -/
theorem process_of_clean :
    ∀ (n : Nat) (l : List Block), l.length ≤ n → CleanList l →
      process_block_attributes l = l := by
  intro n
  induction n with
  | zero =>
    intro l hl _
    have hnil : l = [] := List.length_eq_zero.mp (Nat.le_zero.mp hl)
    subst hnil
    rfl
  | succ n ih =>
    intro l hl hcl
    rcases l with _ | ⟨b, rest⟩
    · rfl
    rcases hf : fireAt (b :: rest) 0 with _ | ⟨⟨k, c, t⟩⟩
    · rw [process_cons_advance b rest hf]
      rw [ih rest (by simp only [List.length_cons] at hl; omega) (List.Chain'.tail hcl)]
    · rcases fireAt_zero_some hf with ⟨rfl, h1, h2, lang, rest', rfl⟩
      have hpair := (List.chain'_cons.mp hcl).1
      have hattr : isAttrParagraph (Block.paragraph [.text t]) = true := by
        have : (strStartsWithChar t '[' && strEndsWithChar t ']') = true := by
          rw [h1, h2]; rfl
        exact this
      exact absurd ⟨hattr, rfl⟩ hpair

/-! ## Claim theorems -/

/-- C1 counterexample: on a parse result with two consecutive attribute
paragraphs before one delimited block, the pass removes only the second one,
leaving `[a]` (which matches `^\[[^\]]*\]$`) immediately before the delimited
block, so the claimed invariant fails. -/
theorem recon_attr_invariant_counterexample :
    process_block_attributes
      [.paragraph [.text "[a]"], .paragraph [.text "[b]"],
        .delimitedBlock .listing "x" none] =
      [.paragraph [.text "[a]"], .delimitedBlock .listing "x" (some "b")] ∧
    regexAttrParagraph (.paragraph [.text "[a]"]) = true ∧
    isDelimited (.delimitedBlock .listing "x" (some "b")) = true ∧
    ¬ RegexCleanList (process_block_attributes
      [.paragraph [.text "[a]"], .paragraph [.text "[b]"],
        .delimitedBlock .listing "x" none]) := by
  refine ⟨rfl, rfl, rfl, ?_⟩
  intro hcl
  rw [show process_block_attributes
      [Block.paragraph [.text "[a]"], .paragraph [.text "[b]"],
        .delimitedBlock .listing "x" none] =
      [.paragraph [.text "[a]"], .delimitedBlock .listing "x" (some "b")] from rfl] at hcl
  exact (List.chain'_cons.mp hcl).1 ⟨rfl, rfl⟩

/-- C1 (amended): on every block list in which no two attribute-shaped
paragraphs are adjacent, after the reconciliation pass no paragraph whose
entire inline content is a single `Text` matching `^\[[^\]]*\]$` occupies a
position immediately before a `DelimitedBlock`. -/
theorem recon_no_attr_para_before_delimited (blocks : List Block)
    (h : NoAdjacentAttr blocks) :
    RegexCleanList (process_block_attributes blocks) :=
  List.Chain'.imp
    (fun _ _ hab ⟨hra, hdb⟩ => hab ⟨attr_of_regex hra, hdb⟩)
    (processClean blocks.length blocks le_rfl h)

/-- Witness for C1's amended theorem at a concrete block list. -/
theorem recon_no_attr_para_before_delimited_witness :
    NoAdjacentAttr [Block.paragraph [.text "[rust]"], .delimitedBlock .listing "y" none] ∧
    RegexCleanList (process_block_attributes
      [Block.paragraph [.text "[rust]"], .delimitedBlock .listing "y" none]) :=
  have h : NoAdjacentAttr
      [Block.paragraph [.text "[rust]"], .delimitedBlock .listing "y" none] :=
    List.chain'_pair.mpr (fun ⟨_, hd⟩ => Bool.noConfusion hd)
  ⟨h, recon_no_attr_para_before_delimited _ h⟩

/-- C2 counterexample: the pass is not idempotent — after one pass on the
two-attribute-paragraph list an attribute paragraph still precedes the
delimited block, so a second pass fires again and changes the list. -/
theorem recon_not_idempotent_counterexample :
    process_block_attributes
      [.paragraph [.text "[a]"], .paragraph [.text "[b]"],
        .delimitedBlock .listing "x" none] =
      [.paragraph [.text "[a]"], .delimitedBlock .listing "x" (some "b")] ∧
    process_block_attributes
      [.paragraph [.text "[a]"], .delimitedBlock .listing "x" (some "b")] =
      [.delimitedBlock .listing "x" (some "a")] ∧
    process_block_attributes (process_block_attributes
      [.paragraph [.text "[a]"], .paragraph [.text "[b]"],
        .delimitedBlock .listing "x" none]) ≠
      process_block_attributes
        [.paragraph [.text "[a]"], .paragraph [.text "[b]"],
          .delimitedBlock .listing "x" none] := by
  refine ⟨rfl, rfl, ?_⟩
  intro h
  rw [show process_block_attributes (process_block_attributes
      [Block.paragraph [.text "[a]"], .paragraph [.text "[b]"],
        .delimitedBlock .listing "x" none]) =
      [.delimitedBlock .listing "x" (some "a")] from rfl] at h
  rw [show process_block_attributes
      [Block.paragraph [.text "[a]"], .paragraph [.text "[b]"],
        .delimitedBlock .listing "x" none] =
      [.paragraph [.text "[a]"], .delimitedBlock .listing "x" (some "b")] from rfl] at h
  simp at h

/-- C2 (amended): on every block list in which no two attribute-shaped
paragraphs are adjacent, running the reconciliation pass twice yields the
same list as running it once. -/
theorem recon_idempotent_of_no_adjacent (blocks : List Block)
    (h : NoAdjacentAttr blocks) :
    process_block_attributes (process_block_attributes blocks) =
      process_block_attributes blocks :=
  process_of_clean (process_block_attributes blocks).length _ le_rfl
    (processClean blocks.length blocks le_rfl h)

/-- Witness for C2's amended theorem at a concrete block list. -/
theorem recon_idempotent_of_no_adjacent_witness :
    NoAdjacentAttr [Block.paragraph [.text "[rust]"], .delimitedBlock .listing "z" none] ∧
    process_block_attributes (process_block_attributes
      [Block.paragraph [.text "[rust]"], .delimitedBlock .listing "z" none]) =
      process_block_attributes
        [Block.paragraph [.text "[rust]"], .delimitedBlock .listing "z" none] :=
  have h : NoAdjacentAttr
      [Block.paragraph [.text "[rust]"], .delimitedBlock .listing "z" none] :=
    List.chain'_pair.mpr (fun ⟨_, hd⟩ => Bool.noConfusion hd)
  ⟨h, recon_idempotent_of_no_adjacent _ h⟩

/-- C10: whenever the reconciliation pass fires on an attribute paragraph
followed by a delimited block, the delimited block keeps its kind and
content, its language is unconditionally replaced by the value derived from
the bracket interior (whatever language was there before), the paragraph is
removed — and, concretely, an empty `[]` attribute paragraph replaces a
previously set language with absent. -/
theorem recon_frame_language_replaced :
    (∀ (t : String) (k : DelimitedBlockKind) (c : String) (lang : Option String)
      (rest : List Block),
      strStartsWithChar t '[' = true → strEndsWithChar t ']' = true →
      process_block_attributes
        (.paragraph [.text t] :: .delimitedBlock k c lang :: rest) =
        .delimitedBlock k c (derivedLanguage t) :: process_block_attributes rest) ∧
    process_block_attributes
      [.paragraph [.text "[]"], .delimitedBlock .listing "x" (some "rust")] =
      [.delimitedBlock .listing "x" none] := by
  constructor
  · intro t k c lang rest h1 h2
    rw [process_cons_fire t k c lang rest h1 h2]
    exact process_cons_advance _ rest (fireAt_zero_of_not_attr rest rfl)
  · rfl

/-- Witness for C10 at a concrete firing instance. -/
theorem recon_frame_language_replaced_witness :
    process_block_attributes
      [.paragraph [.text "[source,rust]"], .delimitedBlock .listing "w" (some "old")] =
      .delimitedBlock .listing "w" (derivedLanguage "[source,rust]") ::
        process_block_attributes [] :=
  recon_frame_language_replaced.1 "[source,rust]" .listing "w" (some "old") [] rfl rfl

/-- C4: scenario 5 — parsing `= Doc`, an attribute line `[source,rust]` and a
listing block containing `fn main() {}` (braces written with escapes below)
succeeds; after reconciliation the body is exactly one Listing block with
language `source` (the first comma-separated entry without `=`/`:`), and its
HTML rendering carries `class="language-source"`. -/
theorem scenario5_reconciled_listing :
    (parse_document_model "= Doc\n\n[source,rust]\n----\nfn main() \x7b\x7d\n----").map
        Document.body =
      some [Block.delimitedBlock .listing "fn main() \x7b\x7d" (some "source")] ∧
    extract_language_from_attributes (some ["source", "rust"]) = some "source" ∧
    blockToHtml (.delimitedBlock .listing "fn main() \x7b\x7d" (some "source")) =
      "<pre><code class=\"language-source\">fn main() \x7b\x7d</code></pre>\n" :=
  ⟨rfl, rfl, rfl⟩

/-- C5: the HTML escaper maps each special character to its entity (in the
source's replacement order, ampersand first), is deterministic as a function,
and is not idempotent: escaping `&` twice differs from escaping it once. -/
theorem escape_html_rules_deterministic_not_idempotent :
    escape_html "&" = "&amp;" ∧ escape_html "<" = "&lt;" ∧
    escape_html ">" = "&gt;" ∧ escape_html "\"" = "&quot;" ∧
    escape_html ⟨[squote]⟩ = "&#39;" ∧
    escape_html "a&b<c>d\"e" = "a&amp;b&lt;c&gt;d&quot;e" ∧
    (∀ s t : String, s = t → escape_html s = escape_html t) ∧
    ∃ s : String, escape_html (escape_html s) ≠ escape_html s := by
  refine ⟨rfl, rfl, rfl, rfl, rfl, rfl, fun s t h => by rw [h], "&", ?_⟩
  intro h
  rw [show escape_html "&" = "&amp;" from rfl] at h
  rw [show escape_html "&amp;" = "&amp;amp;" from rfl] at h
  exact absurd h (by decide)

/-- Witness for C5's determinism conjunct at a concrete input. -/
theorem escape_html_rules_deterministic_not_idempotent_witness :
    escape_html "&" = escape_html "&" :=
  escape_html_rules_deterministic_not_idempotent.2.2.2.2.2.2.1 "&" "&" rfl

/-- C8: the AST stores the raw section level (the count of leading `=`,
unbounded above) while HTML emission clamps the heading tag into `[1, 6]`;
in particular a level-7 section line parses with raw level 7 and emits
`<h6>`. -/
theorem section_raw_level_clamped_emission :
    (∀ content : String, ∃ title,
      parse_section content =
        .sectionB ((content.data.takeWhile (fun c => c = '=')).length) title []) ∧
    (∀ (level : Nat) (title : String), 1 ≤ level →
      blockToHtml (.sectionB level title []) =
        "<h" ++ toString (min level 6) ++ ">" ++ escape_html title ++
          "</h" ++ toString (min level 6) ++ ">\n" ∧
      1 ≤ min level 6 ∧ min level 6 ≤ 6) ∧
    parse_section "======= T" = .sectionB 7 "T" [] ∧
    blockToHtml (.sectionB 7 "T" []) = "<h6>T</h6>\n" := by
  refine ⟨fun content => ⟨_, rfl⟩, fun level title hl => ⟨?_, ?_, ?_⟩, rfl, rfl⟩
  · simp [blockToHtml, blocksToHtml]
  · exact Nat.le_min.mpr ⟨hl, by omega⟩
  · exact Nat.min_le_right _ _

/-- Witness for C8's emission conjunct at level 7. -/
theorem section_raw_level_clamped_emission_witness :
    blockToHtml (.sectionB 7 "T" []) =
      "<h" ++ toString (min 7 6) ++ ">" ++ escape_html "T" ++
        "</h" ++ toString (min 7 6) ++ ">\n" ∧
    1 ≤ min 7 6 ∧ min 7 6 ≤ 6 :=
  section_raw_level_clamped_emission.2.1 7 "T" (by omega)

/-! ## Lemmas about the inline scanner -/

/-- A matched pattern is no longer than the text it matches against. -/
theorem startsWithSeq_length {pat l : List Char} (h : startsWithSeq pat l = true) :
    pat.length ≤ l.length := by
  induction pat generalizing l with
  | nil => simp
  | cons p ps ih =>
    rcases l with _ | ⟨x, xs⟩
    · exact Bool.noConfusion h
    · have h' : (decide (p = x) && startsWithSeq ps xs) = true := h
      simp only [Bool.and_eq_true] at h'
      have := ih h'.2
      simp only [List.length_cons]
      omega

/-- A matched prefix decomposes the text. -/
theorem eq_append_of_startsWithSeq {pat l : List Char}
    (h : startsWithSeq pat l = true) : l = pat ++ l.drop pat.length := by
  induction pat generalizing l with
  | nil => simp
  | cons p ps ih =>
    rcases l with _ | ⟨x, xs⟩
    · exact Bool.noConfusion h
    · have h' : (decide (p = x) && startsWithSeq ps xs) = true := h
      simp only [Bool.and_eq_true, decide_eq_true_eq] at h'
      rcases h' with ⟨rfl, h2⟩
      simpa using ih h2

/-- The position returned by the substring search points at a match. -/
theorem idxOfSeq?_starts {pat l : List Char} {q : Nat}
    (h : idxOfSeq? pat l = some q) : startsWithSeq pat (l.drop q) = true := by
  induction l generalizing q with
  | nil =>
    unfold idxOfSeq? at h
    by_cases hs : startsWithSeq pat [] = true
    · rw [if_pos hs] at h
      injection h with h2
      subst h2
      exact hs
    · rw [if_neg hs] at h
      exact Option.noConfusion h
  | cons x xs ih =>
    unfold idxOfSeq? at h
    by_cases hs : startsWithSeq pat (x :: xs) = true
    · rw [if_pos hs] at h
      injection h with h2
      subst h2
      exact hs
    · rw [if_neg hs] at h
      rcases Option.map_eq_some'.mp h with ⟨q', hq', rfl⟩
      exact ih hq'

/-- The matched occurrence fits inside the text. -/
theorem idxOfSeq?_le {pat l : List Char} {q : Nat} (hpat : pat ≠ [])
    (h : idxOfSeq? pat l = some q) : q + pat.length ≤ l.length := by
  have h1 := startsWithSeq_length (idxOfSeq?_starts h)
  rw [List.length_drop] at h1
  have h2 : 1 ≤ pat.length := List.length_pos.mpr hpat
  omega

/-- A pattern absent from `x :: xs` is absent from `xs`. -/
theorem idxOfSeq?_none_cons {pat : List Char} {x : Char} {xs : List Char}
    (h : idxOfSeq? pat (x :: xs) = none) : idxOfSeq? pat xs = none := by
  unfold idxOfSeq? at h
  by_cases hs : startsWithSeq pat (x :: xs) = true
  · rw [if_pos hs] at h
    exact Option.noConfusion h
  · rw [if_neg hs] at h
    exact Option.map_eq_none'.mp h

/-- A pattern absent from `l` is absent from every suffix of `l`. -/
theorem idxOfSeq?_none_drop {pat l : List Char}
    (h : idxOfSeq? pat l = none) (k : Nat) : idxOfSeq? pat (l.drop k) = none := by
  induction k generalizing l with
  | zero => simpa using h
  | succ k ih =>
    rcases l with _ | ⟨x, xs⟩
    · simpa using h
    · exact ih (idxOfSeq?_none_cons h)

/-- The URL scan never runs past the end of the text. -/
theorem urlEnd_le (l : List Char) : urlEnd l ≤ l.length := by
  induction l with
  | nil => simp [urlEnd]
  | cons c rest ih =>
    unfold urlEnd
    split_ifs <;> simp only [List.length_cons] <;> omega

/-- Fold invariant for the marker search: any marker the fold reports comes
with a candidate pattern that occurs at the reported position. -/
theorem foldl_updateCand_mem (r : List Char) :
    ∀ (cands : List (List Char × Marker)) (acc : Nat × Option Marker),
      (∀ pm ∈ cands, pm ∈ markerCandidates) →
      (∀ m, acc.2 = some m →
        ∃ pat, (pat, m) ∈ markerCandidates ∧ idxOfSeq? pat r = some acc.1) →
      ∀ m, (cands.foldl (updateCand r) acc).2 = some m →
        ∃ pat, (pat, m) ∈ markerCandidates ∧
          idxOfSeq? pat r = some (cands.foldl (updateCand r) acc).1 := by
  intro cands
  induction cands with
  | nil => intro acc _ hacc; exact hacc
  | cons pm cands ih =>
    intro acc hmem hacc
    refine ih (updateCand r acc pm) (fun x hx => hmem x (List.mem_cons_of_mem _ hx)) ?_
    intro m hm
    rcases hidx : idxOfSeq? pm.1 r with _ | p
    · have heq : updateCand r acc pm = acc := by unfold updateCand; rw [hidx]
      rw [heq] at hm ⊢
      exact hacc m hm
    · have heq : updateCand r acc pm = if p < acc.1 then (p, some pm.2) else acc := by
        unfold updateCand; rw [hidx]
      by_cases hlt : p < acc.1
      · rw [heq, if_pos hlt] at hm ⊢
        have hm2 : pm.2 = m := by
          simpa using hm
        subst hm2
        refine ⟨pm.1, ?_, hidx⟩
        have := hmem pm (List.mem_cons_self _ _)
        simpa using this
      · rw [heq, if_neg hlt] at hm ⊢
        exact hacc m hm

/-- When the marker search reports a marker, its pattern occurs at the
reported position. -/
theorem findEarliest_some {r : List Char} {p : Nat} {m : Marker}
    (h : findEarliest r = (p, some m)) :
    ∃ pat, (pat, m) ∈ markerCandidates ∧ idxOfSeq? pat r = some p := by
  have h2 := foldl_updateCand_mem r markerCandidates (r.length, none)
    (fun _ hx => hx) (fun m hm => Option.noConfusion hm) m
  rw [show markerCandidates.foldl (updateCand r) (r.length, none) = findEarliest r from rfl,
    h] at h2
  exact h2 rfl

/-- The nine candidate pattern-marker pairs, enumerated. -/
theorem mem_markerCandidates_cases {pat : List Char} {m : Marker}
    (h : (pat, m) ∈ markerCandidates) :
    (∃ c, pat = [c] ∧ m = .sym c ∧ c ∈ ['*', '_', backtick, '^', '~']) ∨
    (pat = "link:".data ∧ m = .linkM) ∨
    (pat = "https://".data ∧ m = .httpsM) ∨ (pat = "http://".data ∧ m = .httpM) ∨
    (pat = "<<".data ∧ m = .xrefM) := by
  simp only [markerCandidates, List.mem_cons, List.not_mem_nil, or_false,
    Prod.mk.injEq] at h
  rcases h with ⟨h1, h2⟩ | ⟨h1, h2⟩ | ⟨h1, h2⟩ | ⟨h1, h2⟩ | ⟨h1, h2⟩ |
    ⟨h1, h2⟩ | ⟨h1, h2⟩ | ⟨h1, h2⟩ | ⟨h1, h2⟩
  · exact Or.inl ⟨'*', h1, h2, by simp⟩
  · exact Or.inl ⟨'_', h1, h2, by simp⟩
  · exact Or.inl ⟨backtick, h1, h2, by simp⟩
  · exact Or.inl ⟨'^', h1, h2, by simp⟩
  · exact Or.inl ⟨'~', h1, h2, by simp⟩
  · exact Or.inr (Or.inl ⟨h1, h2⟩)
  · exact Or.inr (Or.inr (Or.inl ⟨h1, h2⟩))
  · exact Or.inr (Or.inr (Or.inr (Or.inl ⟨h1, h2⟩)))
  · exact Or.inr (Or.inr (Or.inr (Or.inr ⟨h1, h2⟩)))

/-- One iteration of the scanning loop on a non-empty suffix always consumes
between 1 and `r.length` characters: the loop makes progress and never reads
past the end of the text. -/
theorem scanStep_consumes (r : List Char) (hr : r ≠ []) :
    1 ≤ (scanStep r).2 ∧ (scanStep r).2 ≤ r.length := by
  rcases hfe : findEarliest r with ⟨p, om⟩
  rcases om with _ | m
  · have hstep : (scanStep r).2 = r.length := by
      simp only [scanStep, hfe]
    rw [hstep]
    exact ⟨List.length_pos.mpr hr, le_rfl⟩
  · rcases findEarliest_some hfe with ⟨pat, hmem, hidx⟩
    rcases mem_markerCandidates_cases hmem with
      ⟨c, rfl, rfl, hcmem⟩ | ⟨rfl, rfl⟩ | ⟨rfl, rfl⟩ | ⟨rfl, rfl⟩ | ⟨rfl, rfl⟩
    · -- symmetric marker
      have hple := idxOfSeq?_le (by simp) hidx
      simp only [List.length_singleton] at hple
      rcases he : idxOfSeq? [c] (r.drop (p + 1)) with _ | e
      · have hstep : (scanStep r).2 = p + 1 := by
          simp only [scanStep, hfe, he]
        rw [hstep]
        constructor <;> omega
      · have hstep : (scanStep r).2 = p + 1 + e + 1 := by
          simp only [scanStep, hfe, he]
        have he2 := idxOfSeq?_le (by simp) he
        rw [List.length_drop] at he2
        simp only [List.length_singleton] at he2
        rw [hstep]
        constructor <;> omega
    · -- link macro
      have hple := idxOfSeq?_le (by decide) hidx
      have h5 : ("link:".data).length = 5 := rfl
      rw [h5] at hple
      rcases hb : idxOfSeq? ['['] (r.drop p) with _ | b
      · have hstep : (scanStep r).2 = p + 5 := by
          simp only [scanStep, hfe, hb]
        rw [hstep]
        constructor <;> omega
      · rcases hj : idxOfSeq? [']'] ((r.drop p).drop b) with _ | j
        · have hstep : (scanStep r).2 = p + 5 := by
            simp only [scanStep, hfe, hb, hj]
          rw [hstep]
          constructor <;> omega
        · have hstep : (scanStep r).2 = p + b + j + 1 := by
            simp only [scanStep, hfe, hb, hj]
          have hb2 := idxOfSeq?_le (by simp) hb
          rw [List.length_drop] at hb2
          have hj2 := idxOfSeq?_le (by simp) hj
          rw [List.length_drop, List.length_drop] at hj2
          simp only [List.length_singleton] at hb2 hj2
          rw [hstep]
          constructor <;> omega
    · -- https autolink
      have hstart := idxOfSeq?_starts hidx
      obtain ⟨tl, htl⟩ : ∃ tl, r.drop p = 'h' :: tl := by
        rcases hd : r.drop p with _ | ⟨x, tl⟩
        · rw [hd] at hstart
          exact Bool.noConfusion hstart
        · rw [hd] at hstart
          have h' : (decide ('h' = x) && startsWithSeq "ttps://".data tl) = true := hstart
          simp only [Bool.and_eq_true, decide_eq_true_eq] at h'
          exact ⟨tl, by rw [← h'.1]⟩
      have he1 : 1 ≤ urlEnd (r.drop p) := by
        rw [htl]
        simp only [urlEnd]
        rw [if_neg (by decide), if_neg ?hdot, if_neg (by decide)]
        case hdot =>
          intro hcon
          have h2 : (false && (match tl with
            | [] => true | d :: _ => isWsRust d)) = true := hcon
          exact Bool.noConfusion h2
        omega
      have heLe : urlEnd (r.drop p) ≤ r.length - p := by
        have h2 := urlEnd_le (r.drop p)
        rwa [List.length_drop] at h2
      have hple := idxOfSeq?_le (by decide) hidx
      have h8 : ("https://".data).length = 8 := rfl
      rw [h8] at hple
      rcases hd2 : (r.drop p).drop (urlEnd (r.drop p)) with _ | ⟨c0, restB⟩
      · have hstep : (scanStep r).2 = p + urlEnd (r.drop p) := by
          simp only [scanStep, hfe, hd2]
        rw [hstep]
        constructor <;> omega
      · by_cases hc0 : c0 = '['
        · subst hc0
          rcases hj : idxOfSeq? [']'] restB with _ | j
          · have hstep : (scanStep r).2 = p + urlEnd (r.drop p) := by
              simp only [scanStep, hfe, hd2, hj]
              simp
            rw [hstep]
            constructor <;> omega
          · have hstep : (scanStep r).2 = p + urlEnd (r.drop p) + 1 + j + 1 := by
              simp only [scanStep, hfe, hd2, hj]
              simp
            have hj2 := idxOfSeq?_le (by simp) hj
            simp only [List.length_singleton] at hj2
            have hlen2 : r.length - p - urlEnd (r.drop p) = restB.length + 1 := by
              have h2 := congrArg List.length hd2
              simp only [List.length_drop, List.length_cons] at h2
              exact h2
            rw [hstep]
            constructor <;> omega
        · have hstep : (scanStep r).2 = p + urlEnd (r.drop p) := by
            simp only [scanStep, hfe, hd2, if_neg hc0]
          rw [hstep]
          constructor <;> omega
    · -- http autolink
      have hstart := idxOfSeq?_starts hidx
      obtain ⟨tl, htl⟩ : ∃ tl, r.drop p = 'h' :: tl := by
        rcases hd : r.drop p with _ | ⟨x, tl⟩
        · rw [hd] at hstart
          exact Bool.noConfusion hstart
        · rw [hd] at hstart
          have h' : (decide ('h' = x) && startsWithSeq "ttp://".data tl) = true := hstart
          simp only [Bool.and_eq_true, decide_eq_true_eq] at h'
          exact ⟨tl, by rw [← h'.1]⟩
      have he1 : 1 ≤ urlEnd (r.drop p) := by
        rw [htl]
        simp only [urlEnd]
        rw [if_neg (by decide), if_neg ?hdot, if_neg (by decide)]
        case hdot =>
          intro hcon
          have h2 : (false && (match tl with
            | [] => true | d :: _ => isWsRust d)) = true := hcon
          exact Bool.noConfusion h2
        omega
      have heLe : urlEnd (r.drop p) ≤ r.length - p := by
        have h2 := urlEnd_le (r.drop p)
        rwa [List.length_drop] at h2
      have hple := idxOfSeq?_le (by decide) hidx
      have h7 : ("http://".data).length = 7 := rfl
      rw [h7] at hple
      rcases hd2 : (r.drop p).drop (urlEnd (r.drop p)) with _ | ⟨c0, restB⟩
      · have hstep : (scanStep r).2 = p + urlEnd (r.drop p) := by
          simp only [scanStep, hfe, hd2]
        rw [hstep]
        constructor <;> omega
      · by_cases hc0 : c0 = '['
        · subst hc0
          rcases hj : idxOfSeq? [']'] restB with _ | j
          · have hstep : (scanStep r).2 = p + urlEnd (r.drop p) := by
              simp only [scanStep, hfe, hd2, hj]
              simp
            rw [hstep]
            constructor <;> omega
          · have hstep : (scanStep r).2 = p + urlEnd (r.drop p) + 1 + j + 1 := by
              simp only [scanStep, hfe, hd2, hj]
              simp
            have hj2 := idxOfSeq?_le (by simp) hj
            simp only [List.length_singleton] at hj2
            have hlen2 : r.length - p - urlEnd (r.drop p) = restB.length + 1 := by
              have h2 := congrArg List.length hd2
              simp only [List.length_drop, List.length_cons] at h2
              exact h2
            rw [hstep]
            constructor <;> omega
        · have hstep : (scanStep r).2 = p + urlEnd (r.drop p) := by
            simp only [scanStep, hfe, hd2, if_neg hc0]
          rw [hstep]
          constructor <;> omega
    · -- cross-reference
      have hple := idxOfSeq?_le (by decide) hidx
      have h2 : ("<<".data).length = 2 := rfl
      rw [h2] at hple
      rcases he : idxOfSeq? ['>', '>'] ((r.drop p).drop 2) with _ | e
      · have hstep : (scanStep r).2 = p + 2 := by
          simp only [scanStep, hfe, he]
        rw [hstep]
        constructor <;> omega
      · have hstep : (scanStep r).2 = p + 2 + e + 2 := by
          simp only [scanStep, hfe, he]
        have he2 := idxOfSeq?_le (by simp) he
        rw [List.length_drop, List.length_drop] at he2
        have h22 : (['>', '>'] : List Char).length = 2 := rfl
        rw [h22] at he2
        rw [hstep]
        constructor <;> omega

/-- Any fuel at least the length of the text runs the scanning loop to
completion. -/
theorem scanWithFuel_eq (f : Nat) :
    ∀ r : List Char, r.length ≤ f → scanWithFuel f r = scanInline r := by
  induction f using Nat.strong_induction_on with
  | _ f ih =>
    intro r hl
    rcases f with _ | f
    · have hnil : r = [] := List.length_eq_zero.mp (Nat.le_zero.mp hl)
      subst hnil
      rfl
    rcases r with _ | ⟨x, xs⟩
    · rfl
    have hk := scanStep_consumes (x :: xs) (by simp)
    have hL : scanWithFuel (f + 1) (x :: xs) =
        (scanStep (x :: xs)).1 ++ scanWithFuel f ((x :: xs).drop (scanStep (x :: xs)).2) := by
      simp [scanWithFuel]
    have hR : scanInline (x :: xs) =
        (scanStep (x :: xs)).1 ++
          scanWithFuel xs.length ((x :: xs).drop (scanStep (x :: xs)).2) := by
      show scanWithFuel (x :: xs).length (x :: xs) = _
      simp [scanWithFuel]
    simp only [List.length_cons] at hl
    rw [hL, hR]
    congr 1
    have hdl : ((x :: xs).drop (scanStep (x :: xs)).2).length ≤ xs.length := by
      rw [List.length_drop]
      simp only [List.length_cons]
      omega
    rw [ih f (by omega) _ (by omega), ih xs.length (by omega) _ hdl]

/-- One-step unfolding of the scanner on a non-empty text. -/
theorem scanInline_unfold {r : List Char} (hr : r ≠ []) :
    scanInline r = (scanStep r).1 ++ scanInline (r.drop (scanStep r).2) := by
  rcases r with _ | ⟨x, xs⟩
  · exact absurd rfl hr
  have hk := scanStep_consumes (x :: xs) (by simp)
  have hR : scanInline (x :: xs) =
      (scanStep (x :: xs)).1 ++
        scanWithFuel xs.length ((x :: xs).drop (scanStep (x :: xs)).2) := by
    show scanWithFuel (x :: xs).length (x :: xs) = _
    simp [scanWithFuel]
  rw [hR, scanWithFuel_eq xs.length _ ?_]
  rw [List.length_drop]
  simp only [List.length_cons]
  omega

/-- The marker search never reports a marker on the empty text. -/
theorem findEarliest_nil : findEarliest [] = (0, none) := by decide

/-- C6: when the earliest marker is a symmetric formatting character with no
later occurrence of the same character in the remaining text, the scanner
emits the text before the marker (if non-empty), then the single marker
character as literal `Text`, and resumes one character past the marker; in
particular a paragraph ending in an unterminated `*` yields a literal `*`. -/
theorem unterminated_marker_emits_literal (r : List Char) (p : Nat) (c : Char)
    (h1 : findEarliest r = (p, some (.sym c)))
    (h2 : idxOfSeq? [c] (r.drop (p + 1)) = none) :
    scanInline r =
      (if 0 < p then [InlineElement.text ⟨r.take p⟩] else []) ++
        [InlineElement.text ⟨[c]⟩] ++ scanInline (r.drop (p + 1)) ∧
    parse_paragraph_content "ab*" = [.text "ab", .text "*"] := by
  refine ⟨?_, rfl⟩
  have hr : r ≠ [] := by
    rintro rfl
    rw [findEarliest_nil] at h1
    exact Option.noConfusion (congrArg Prod.snd h1)
  have hstep : scanStep r =
      ((if 0 < p then [InlineElement.text ⟨r.take p⟩] else []) ++
        [InlineElement.text ⟨[c]⟩], p + 1) := by
    simp only [scanStep, h1, h2]
  rw [scanInline_unfold hr, hstep]

/-- Witness for C6 at the concrete paragraph text `ab*`. -/
theorem unterminated_marker_emits_literal_witness :
    scanInline "ab*".data =
      (if 0 < 2 then [InlineElement.text ⟨"ab*".data.take 2⟩] else []) ++
        [InlineElement.text ⟨['*']⟩] ++ scanInline ("ab*".data.drop 3) ∧
    parse_paragraph_content "ab*" = [.text "ab", .text "*"] :=
  unterminated_marker_emits_literal "ab*".data 2 '*' (by decide) (by decide)

/-- C9: the scanner makes progress and stays in bounds on every non-empty
suffix (so the loop is total and every slice it takes lies inside the text);
unterminated formatting markers, bare macro prefixes without their closing
delimiters, and unrecognized bracket text all downgrade to literal text; and
the modelled parse entry point returns a document for every input rather
than failing abnormally. -/
theorem scanner_total_in_bounds_literal_downgrades :
    (∀ r : List Char, r ≠ [] → 1 ≤ (scanStep r).2 ∧ (scanStep r).2 ≤ r.length) ∧
    parse_paragraph_content "a*b" = [.text "a", .text "*", .text "b"] ∧
    parse_paragraph_content "link:x" = [.text "link:", .text "x"] ∧
    parse_paragraph_content "<<x" = [.text "<<", .text "x"] ∧
    parse_paragraph_content "a]b[" = [.text "a]b["] ∧
    (∀ s : String, (parse_document_model s).isSome = true) := by
  refine ⟨scanStep_consumes, rfl, rfl, rfl, rfl, ?_⟩
  intro s
  unfold parse_document_model
  rcases (splitChar '\n' s.data).map (fun l => (⟨l⟩ : String)) with _ | ⟨l0, rest⟩
  · rfl
  · by_cases h0 : startsWithSeq "= ".data l0.data = true
    · simp only [h0, if_true, Option.isSome_some]
    · simp only [h0, if_false, Option.isSome_some]
      simp [h0]

/-- Witness for C9's bounds conjunct at a concrete suffix. -/
theorem scanner_total_in_bounds_literal_downgrades_witness :
    1 ≤ (scanStep "x*y".data).2 ∧ (scanStep "x*y".data).2 ≤ "x*y".data.length :=
  scanner_total_in_bounds_literal_downgrades.1 "x*y".data (by decide)

/-- Shifting the URL-terminator condition across the head of the text. -/
theorem urlBreakAt_cons_succ (c : Char) (rest : List Char) (j : Nat) :
    urlBreakAt (c :: rest) (j + 1) ↔ urlBreakAt rest j := Iff.rfl

/-- The URL scan stops exactly at the first terminator: every position before
`urlEnd l` fails the terminator condition, and `urlEnd l` itself satisfies it
whenever it lies inside the text. -/
theorem urlEnd_first_break (l : List Char) :
    (∀ j, j < urlEnd l → ¬ urlBreakAt l j) ∧
    (urlEnd l < l.length → urlBreakAt l (urlEnd l)) := by
  induction l with
  | nil =>
    refine ⟨fun j hj => ?_, fun h => ?_⟩
    · simp [urlEnd] at hj
    · simp [urlEnd] at h
  | cons c rest ih =>
    simp only [urlEnd]
    split_ifs with h1 h2 h3
    · refine ⟨fun j hj => by omega, fun _ => ?_⟩
      unfold urlBreakAt
      simp only [List.get?_cons_zero]
      simp only [Bool.or_eq_true, decide_eq_true_eq] at h1
      rcases h1 with ((ha | hb) | hc) | hd
      · exact Or.inl ha
      · exact Or.inr (Or.inl hb)
      · exact Or.inr (Or.inr (Or.inl hc))
      · exact Or.inr (Or.inr (Or.inr (Or.inl hd)))
    · refine ⟨fun j hj => by omega, fun _ => ?_⟩
      unfold urlBreakAt
      simp only [List.get?_cons_zero]
      simp only [Bool.and_eq_true, decide_eq_true_eq] at h2
      refine Or.inr (Or.inr (Or.inr (Or.inr (Or.inl ⟨h2.1, ?_⟩))))
      rcases rest with _ | ⟨d, rest2⟩
      · simp
      · simp only [List.get?_cons_succ, List.get?_cons_zero]
        exact h2.2
    · refine ⟨fun j hj => by omega, fun _ => ?_⟩
      unfold urlBreakAt
      simp only [List.get?_cons_zero]
      exact Or.inr (Or.inr (Or.inr (Or.inr (Or.inr h3))))
    · simp only [Bool.or_eq_true, decide_eq_true_eq] at h1
      push_neg at h1
      constructor
      · intro j hj
        rcases j with _ | j
        · unfold urlBreakAt
          simp only [List.get?_cons_zero]
          rintro (ha | hb | hc | hd | ⟨he, hf⟩ | hg)
          · exact h1.1.1.1 ha
          · exact h1.1.1.2 hb
          · exact h1.1.2 hc
          · exact h1.2 hd
          · refine h2 ?_
            subst he
            rcases rest with _ | ⟨d, rest2⟩
            · rfl
            · simp only [List.get?_cons_succ, List.get?_cons_zero] at hf
              simp [hf]
          · exact h3 hg
        · intro hb
          exact ih.1 j (by omega) ((urlBreakAt_cons_succ c rest j).mp hb)
      · intro hlt
        rw [show 1 + urlEnd rest = urlEnd rest + 1 from by omega]
        rw [urlBreakAt_cons_succ]
        refine ih.2 ?_
        simp only [List.length_cons] at hlt
        omega

/-- C7 counterexample: a bare URL immediately followed by an empty bracket
pair `[]` does not make the (empty) bracket interior the link text — the
emitted macro's text field is absent instead. -/
theorem bare_url_empty_bracket_counterexample :
    parse_paragraph_content "http://a[] x" =
      [.mac (.link "http://a" none), .text " x"] ∧
    (none : Option String) ≠ some "" := ⟨rfl, by decide⟩

/-- C7 (amended): for a bare `http://`/`https://` occurrence, the URL extends
up to but not including the first whitespace, `,`, `)`, `>`, `[`, or
sentence-ending `.`; a following bracket with non-empty interior becomes the
link text, a following bracket with empty interior leaves the text absent,
and with no following bracket the text equals the URL itself. -/
theorem bare_url_scan (r : List Char) (p : Nat) (m : Marker)
    (hm : m = Marker.httpM ∨ m = Marker.httpsM)
    (hfe : findEarliest r = (p, some m)) :
    (∀ j, j < urlEnd (r.drop p) → ¬ urlBreakAt (r.drop p) j) ∧
    (urlEnd (r.drop p) < (r.drop p).length →
      urlBreakAt (r.drop p) (urlEnd (r.drop p))) ∧
    (∀ restB j, (r.drop p).drop (urlEnd (r.drop p)) = '[' :: restB →
      idxOfSeq? [']'] restB = some j → 0 < j →
      scanInline r =
        (if 0 < p then [InlineElement.text ⟨r.take p⟩] else []) ++
          [.mac (.link ⟨(r.drop p).take (urlEnd (r.drop p))⟩ (some ⟨restB.take j⟩))] ++
          scanInline (r.drop (p + urlEnd (r.drop p) + 1 + j + 1))) ∧
    (∀ restB, (r.drop p).drop (urlEnd (r.drop p)) = '[' :: restB →
      idxOfSeq? [']'] restB = some 0 →
      scanInline r =
        (if 0 < p then [InlineElement.text ⟨r.take p⟩] else []) ++
          [.mac (.link ⟨(r.drop p).take (urlEnd (r.drop p))⟩ none)] ++
          scanInline (r.drop (p + urlEnd (r.drop p) + 1 + 0 + 1))) ∧
    (∀ c0 restB, (r.drop p).drop (urlEnd (r.drop p)) = c0 :: restB → c0 ≠ '[' →
      scanInline r =
        (if 0 < p then [InlineElement.text ⟨r.take p⟩] else []) ++
          [.mac (.link ⟨(r.drop p).take (urlEnd (r.drop p))⟩
            (some ⟨(r.drop p).take (urlEnd (r.drop p))⟩))] ++
          scanInline (r.drop (p + urlEnd (r.drop p)))) := by
  have hr : r ≠ [] := by
    rintro rfl
    rw [findEarliest_nil] at hfe
    have h2 := congrArg Prod.snd hfe
    rcases hm with rfl | rfl <;> exact Option.noConfusion h2
  refine ⟨(urlEnd_first_break _).1, (urlEnd_first_break _).2, ?_, ?_, ?_⟩
  · intro restB j hbr hj hjpos
    have hrb : restB ≠ [] := by
      rintro rfl
      rw [show idxOfSeq? [']'] [] = none from rfl] at hj
      exact Option.noConfusion hj
    have hne : (restB.take j).isEmpty = false := by
      rcases restB with _ | ⟨x, xs⟩
      · exact absurd rfl hrb
      · rcases j with _ | j
        · omega
        · rfl
    have hstep : scanStep r =
        ((if 0 < p then [InlineElement.text ⟨r.take p⟩] else []) ++
          [.mac (.link ⟨(r.drop p).take (urlEnd (r.drop p))⟩ (some ⟨restB.take j⟩))],
         p + urlEnd (r.drop p) + 1 + j + 1) := by
      rcases hm with rfl | rfl <;>
        · simp only [scanStep, hfe, hbr, hj]
          simp [hne]
    rw [scanInline_unfold hr, hstep]
  · intro restB hbr hj
    have hstep : scanStep r =
        ((if 0 < p then [InlineElement.text ⟨r.take p⟩] else []) ++
          [.mac (.link ⟨(r.drop p).take (urlEnd (r.drop p))⟩ none)],
         p + urlEnd (r.drop p) + 1 + 0 + 1) := by
      rcases hm with rfl | rfl <;>
        · simp only [scanStep, hfe, hbr, hj]
          simp
    rw [scanInline_unfold hr, hstep]
  · intro c0 restB hbr hc0
    have hstep : scanStep r =
        ((if 0 < p then [InlineElement.text ⟨r.take p⟩] else []) ++
          [.mac (.link ⟨(r.drop p).take (urlEnd (r.drop p))⟩
            (some ⟨(r.drop p).take (urlEnd (r.drop p))⟩))],
         p + urlEnd (r.drop p)) := by
      rcases hm with rfl | rfl <;>
        · simp only [scanStep, hfe, hbr]
          rw [if_neg hc0]
    rw [scanInline_unfold hr, hstep]

/-- Witness for C7's amended theorem: `http://a b` stops at the space and the
link text equals the URL. -/
theorem bare_url_scan_witness :
    scanInline "http://a b".data =
      (if 0 < 0 then [InlineElement.text ⟨"http://a b".data.take 0⟩] else []) ++
        [.mac (.link ⟨("http://a b".data.drop 0).take (urlEnd ("http://a b".data.drop 0))⟩
          (some ⟨("http://a b".data.drop 0).take (urlEnd ("http://a b".data.drop 0))⟩))] ++
        scanInline ("http://a b".data.drop (0 + urlEnd ("http://a b".data.drop 0))) :=
  (bare_url_scan "http://a b".data 0 .httpM (Or.inl rfl) (by decide)).2.2.2.2
    ' ' "b".data (by decide) (by decide)

/-- The marker-reinstating rendering distributes over concatenation. -/
theorem renderInlines_append (a b : List InlineElement) :
    renderInlines (a ++ b) = renderInlines a ++ renderInlines b := by
  induction a with
  | nil => rfl
  | cons e es ihe =>
    simp only [List.cons_append]
    show renderInline e ++ renderInlines (es ++ b) =
      (renderInline e ++ renderInlines es) ++ renderInlines b
    rw [ihe, List.append_assoc]

/-- Rendering the optional pre-marker text chunk. -/
theorem renderInlines_pre (r : List Char) (p : Nat) (es : List InlineElement) :
    renderInlines ((if 0 < p then [InlineElement.text ⟨r.take p⟩] else []) ++ es) =
      r.take p ++ renderInlines es := by
  by_cases hp : 0 < p
  · rw [if_pos hp]
    rfl
  · rw [if_neg hp]
    have hz : p = 0 := by omega
    subst hz
    rfl

/-- On macro-free text the marker search only ever reports a symmetric
marker, occurring at the reported position. -/
theorem findEarliest_macrofree {r : List Char} {p : Nat} {m : Marker}
    (hmf : MacroFree r) (h : findEarliest r = (p, some m)) :
    ∃ c, m = .sym c ∧ c ∈ ['*', '_', backtick, '^', '~'] ∧
      idxOfSeq? [c] r = some p := by
  rcases findEarliest_some h with ⟨pat, hmem, hidx⟩
  rcases mem_markerCandidates_cases hmem with
    ⟨c, rfl, rfl, hc⟩ | ⟨rfl, rfl⟩ | ⟨rfl, rfl⟩ | ⟨rfl, rfl⟩ | ⟨rfl, rfl⟩
  · exact ⟨c, rfl, hc, hidx⟩
  · rw [hmf.1] at hidx
    exact Option.noConfusion hidx
  · rw [hmf.2.1] at hidx
    exact Option.noConfusion hidx
  · rw [hmf.2.2.1] at hidx
    exact Option.noConfusion hidx
  · rw [hmf.2.2.2] at hidx
    exact Option.noConfusion hidx

/-- A found single-character occurrence splits the text around it. -/
theorem split_at_char {c : Char} {r : List Char} {p : Nat}
    (h : idxOfSeq? [c] r = some p) :
    r = r.take p ++ c :: r.drop (p + 1) := by
  have h1 := idxOfSeq?_starts h
  have h2 := eq_append_of_startsWithSeq h1
  have h3 : r.drop p = c :: r.drop (p + 1) := by
    rw [h2]
    simp only [List.length_singleton, List.singleton_append, List.drop_drop]
  conv_lhs => rw [← List.take_append_drop p r, h3]

/-- The marker character reinstated for a marker's formatting kind. -/
theorem markerCharOf_formattedKindOf {c : Char}
    (hc : c ∈ ['*', '_', backtick, '^', '~']) :
    markerCharOf (formattedKindOf c) = c := by
  rcases (by simpa using hc : c = '*' ∨ c = '_' ∨ c = backtick ∨ c = '^' ∨ c = '~') with
    rfl | rfl | rfl | rfl | rfl <;> decide

/-- Round trip of the scanner on macro-free text: re-inserting the formatting
markers around each `Formatted` element and keeping `Text` verbatim
reconstructs the input exactly. -/
theorem renderInlines_scanInline :
    ∀ (n : Nat) (r : List Char), r.length ≤ n → MacroFree r →
      renderInlines (scanInline r) = r := by
  intro n
  induction n with
  | zero =>
    intro r hl _
    have hnil : r = [] := List.length_eq_zero.mp (Nat.le_zero.mp hl)
    subst hnil
    rfl
  | succ n ih =>
    intro r hl hmf
    by_cases hrnil : r = []
    · subst hrnil
      rfl
    have hlpos : 1 ≤ r.length := List.length_pos.mpr hrnil
    rcases hfe : findEarliest r with ⟨p, om⟩
    rcases om with _ | m
    · have hstep : scanStep r = ([.text ⟨r⟩], r.length) := by
        simp only [scanStep, hfe]
      rw [scanInline_unfold hrnil, hstep]
      show renderInlines ([.text ⟨r⟩] ++ scanInline (r.drop r.length)) = r
      rw [List.drop_length]
      show renderInlines [.text ⟨r⟩] = r
      simp [renderInlines, renderInline]
    · rcases findEarliest_macrofree hmf hfe with ⟨c, rfl, hc, hidx⟩
      have hsplit := split_at_char hidx
      have hple : p + 1 ≤ r.length := by
        have := idxOfSeq?_le (by simp) hidx
        simpa using this
      rcases he : idxOfSeq? [c] (r.drop (p + 1)) with _ | e
      · have hstep : scanStep r =
            ((if 0 < p then [InlineElement.text ⟨r.take p⟩] else []) ++
              [.text ⟨[c]⟩], p + 1) := by
          simp only [scanStep, hfe, he]
        rw [scanInline_unfold hrnil, hstep]
        show renderInlines (((if 0 < p then [InlineElement.text ⟨r.take p⟩] else []) ++
          [.text ⟨[c]⟩]) ++ scanInline (r.drop (p + 1))) = r
        rw [List.append_assoc, renderInlines_pre, renderInlines_append]
        rw [ih (r.drop (p + 1)) ?ulen ?umf]
        case ulen =>
          rw [List.length_drop]
          omega
        case umf =>
          exact ⟨idxOfSeq?_none_drop hmf.1 _, idxOfSeq?_none_drop hmf.2.1 _,
            idxOfSeq?_none_drop hmf.2.2.1 _, idxOfSeq?_none_drop hmf.2.2.2 _⟩
        conv_rhs => rw [hsplit]
        simp [renderInlines, renderInline]
      · have hstep : scanStep r =
            ((if 0 < p then [InlineElement.text ⟨r.take p⟩] else []) ++
              [.formatted (formattedKindOf c) [.text ⟨(r.drop (p + 1)).take e⟩]],
             p + 1 + e + 1) := by
          simp only [scanStep, hfe, he]
        rw [scanInline_unfold hrnil, hstep]
        show renderInlines (((if 0 < p then [InlineElement.text ⟨r.take p⟩] else []) ++
          [.formatted (formattedKindOf c) [.text ⟨(r.drop (p + 1)).take e⟩]]) ++
            scanInline (r.drop (p + 1 + e + 1))) = r
        rw [List.append_assoc, renderInlines_pre, renderInlines_append]
        have he2 : e + 1 ≤ r.length - (p + 1) := by
          have := idxOfSeq?_le (by simp) he
          rw [List.length_drop] at this
          simpa using this
        rw [ih (r.drop (p + 1 + e + 1)) ?flen ?fmf]
        case flen =>
          rw [List.length_drop]
          omega
        case fmf =>
          exact ⟨idxOfSeq?_none_drop hmf.1 _, idxOfSeq?_none_drop hmf.2.1 _,
            idxOfSeq?_none_drop hmf.2.2.1 _, idxOfSeq?_none_drop hmf.2.2.2 _⟩
        have hsplit2 := split_at_char he
        have hdd : (r.drop (p + 1)).drop (e + 1) = r.drop (p + 1 + e + 1) := by
          rw [List.drop_drop, show p + 1 + (e + 1) = p + 1 + e + 1 from by omega]
        conv_rhs => rw [hsplit, hsplit2, hdd]
        simp [renderInlines, renderInline, markerCharOf_formattedKindOf hc]

/-- Appending strings concatenates their character data. -/
theorem strData_append (a b : String) : (a ++ b).data = a.data ++ b.data := rfl

/-- C3 counterexample: for the one-line paragraph `*b*` the scanner produces
a `Strong` element carrying plain text `b`, so concatenating the plain text
of the inline elements (markers removed) yields `b`, not the joined source
text `*b*`. -/
theorem paragraph_plaintext_counterexample :
    parse_paragraph_lines ["*b*"] = [.formatted .strong [.text "b"]] ∧
    (⟨plainInlines (parse_paragraph_lines ["*b*"])⟩ : String) = "b" ∧
    joinSpaces ["*b*"] = "*b*" ∧
    (⟨plainInlines (parse_paragraph_lines ["*b*"])⟩ : String) ≠ joinSpaces ["*b*"] := by
  refine ⟨rfl, rfl, rfl, ?_⟩
  intro h
  rw [show (⟨plainInlines (parse_paragraph_lines ["*b*"])⟩ : String) = "b" from rfl,
    show joinSpaces ["*b*"] = "*b*" from rfl] at h
  exact absurd h (by decide)

/-- The line loop of `parse_paragraph_lines`, once content is present and
the first line has passed, appends a space and the line's scan for every
further line. -/
theorem parseParaLoop_acc (ls : List String) :
    ∀ acc : List InlineElement, acc ≠ [] →
      parseParaLoop acc false ls = acc ++ glueLines ls := by
  induction ls with
  | nil => intro acc _; simp [parseParaLoop, glueLines]
  | cons l ls ihl =>
    intro acc hacc
    have hcond : (!false && !acc.isEmpty) = true := by
      rcases acc with _ | ⟨a, as⟩
      · exact absurd rfl hacc
      · rfl
    show parseParaLoop ((if !false && !acc.isEmpty then acc ++ [.text " "]
      else acc) ++ parse_paragraph_content l) false ls = acc ++ glueLines (l :: ls)
    rw [if_pos hcond, ihl _ (by simp)]
    simp [glueLines, List.append_assoc]

/-- Unfolding `parse_paragraph_lines` on a non-degenerate first line: the first
line's scan followed by the glued remaining lines. -/
theorem parse_paragraph_lines_eq (l : String) (ls : List String)
    (hl : parse_paragraph_content l ≠ []) :
    parse_paragraph_lines (l :: ls) = parse_paragraph_content l ++ glueLines ls := by
  show parseParaLoop ((if !true && !(List.isEmpty []) then [.text " "] else []) ++
    parse_paragraph_content l) false ls = _
  rw [show ((if !true && !(List.isEmpty []) then [.text " "] else ([] : List InlineElement)) ++
    parse_paragraph_content l) = parse_paragraph_content l from rfl]
  rw [parseParaLoop_acc ls _ hl]

/-- C3 (amended): for paragraph source lines that are non-empty and contain
no macro markers (`link:`, `https://`, `http://`, `<<`), concatenating the
textual rendering of the produced inline elements with the formatting
markers reinstated (marker, interior, marker for each `Formatted` element)
equals the lines joined with single spaces.  (The claim's plain-text reading,
with markers removed, is refuted by `paragraph_plaintext_counterexample`.) -/
theorem paragraph_lines_render_roundtrip :
    ∀ lines : List String, (∀ l ∈ lines, MacroFree l.data) →
      (∀ l ∈ lines, l.data ≠ []) →
      renderInlines (parse_paragraph_lines lines) = (joinSpaces lines).data := by
  intro lines
  induction lines with
  | nil => intro _ _; rfl
  | cons l ls ih =>
    intro hmf hne
    have hm1 : MacroFree l.data := hmf l (List.mem_cons_self _ _)
    have hscan : renderInlines (scanInline l.data) = l.data :=
      renderInlines_scanInline l.data.length l.data le_rfl hm1
    have hscan_ne : parse_paragraph_content l ≠ [] := by
      intro hz
      have h2 := hscan
      rw [show parse_paragraph_content l = scanInline l.data from rfl] at hz
      rw [hz] at h2
      exact hne l (List.mem_cons_self _ _) h2.symm
    rw [parse_paragraph_lines_eq l ls hscan_ne, renderInlines_append,
      show parse_paragraph_content l = scanInline l.data from rfl, hscan]
    rcases ls with _ | ⟨l2, ls2⟩
    · show l.data ++ renderInlines [] = (joinSpaces [l]).data
      simp [renderInlines, joinSpaces]
    · have ih2 := ih (fun x hx => hmf x (List.mem_cons_of_mem _ hx))
        (fun x hx => hne x (List.mem_cons_of_mem _ hx))
      have hm2 : MacroFree l2.data := hmf l2 (by simp)
      have hscan2 : renderInlines (scanInline l2.data) = l2.data :=
        renderInlines_scanInline l2.data.length l2.data le_rfl hm2
      have hscan2_ne : parse_paragraph_content l2 ≠ [] := by
        intro hz
        have h2 := hscan2
        rw [show parse_paragraph_content l2 = scanInline l2.data from rfl] at hz
        rw [hz] at h2
        exact hne l2 (by simp) h2.symm
      rw [parse_paragraph_lines_eq l2 ls2 hscan2_ne] at ih2
      simp only [glueLines]
      calc l.data ++ renderInlines (.text " " ::
            (parse_paragraph_content l2 ++ glueLines ls2))
          = l.data ++ (' ' :: renderInlines
            (parse_paragraph_content l2 ++ glueLines ls2)) := rfl
        _ = l.data ++ (' ' :: (joinSpaces (l2 :: ls2)).data) := by rw [ih2]
        _ = (joinSpaces (l :: l2 :: ls2)).data := by
            show _ = ((l ++ " ") ++ joinSpaces (l2 :: ls2)).data
            rw [strData_append, strData_append]
            simp

/-- Witness for C3's amended theorem at two concrete macro-free lines. -/
theorem paragraph_lines_render_roundtrip_witness :
    renderInlines (parse_paragraph_lines ["a *b*", "c_d_e"]) =
      (joinSpaces ["a *b*", "c_d_e"]).data :=
  paragraph_lines_render_roundtrip ["a *b*", "c_d_e"] (by decide) (by decide)
